import Mathlib

/-!
Shallow embedding of the rust-g2p grapheme-to-phoneme converter
(src/phoneme.rs, src/dict.rs, src/rules.rs, src/text.rs, src/lib.rs).

Words are modelled as `String`/`List Char`.  Rust's ASCII case helper
`to_ascii_lowercase` coincides with `Char.toLower`; Rust's Unicode
`str::to_lowercase` is modelled character-wise, which agrees with it on
ASCII input.  Rust byte lengths (`str::len`) are modelled as UTF-8 sizes.
Hash maps whose contents are fixed tables are modelled as association
lists looked up with `List.lookup`; the keys of every such table are
pairwise distinct, so lookup agrees with the hash map.
-/

namespace G2P

/-! ## Phoneme model (src/phoneme.rs) -/

inductive StressLevel where
  | primary
  | secondary
  | unstressed
deriving DecidableEq

inductive PhonemeType where
  | vowel
  | consonant
  | special
deriving DecidableEq

inductive Manner where
  | stop | fricative | affricate | nasal | liquid | glide
deriving DecidableEq

inductive Place where
  | bilabial | labiodental | dental | alveolar | postalveolar | palatal | velar | glottal
deriving DecidableEq

inductive Voicing where
  | voiced | voiceless
deriving DecidableEq

inductive Height where
  | high | mid | low
deriving DecidableEq

inductive Backness where
  | front | central | back
deriving DecidableEq

structure PhonemeFeatures where
  phonemeType : PhonemeType
  manner : Option Manner
  place : Option Place
  voicing : Option Voicing
  height : Option Height
  backness : Option Backness
deriving DecidableEq

def PhonemeFeatures.vowel (h : Height) (b : Backness) : PhonemeFeatures :=
  { phonemeType := .vowel, manner := none, place := none, voicing := none,
    height := some h, backness := some b }

def PhonemeFeatures.consonant (m : Manner) (p : Place) (v : Voicing) : PhonemeFeatures :=
  { phonemeType := .consonant, manner := some m, place := some p, voicing := some v,
    height := none, backness := none }

def PhonemeFeatures.default : PhonemeFeatures :=
  { phonemeType := .special, manner := none, place := none, voicing := none,
    height := none, backness := none }

/-- The fixed feature template of `Phoneme::get_arpabet_features`: 15 vowels
and 24 consonants.  The source is a `match` on the base symbol with a
default arm; an association list with distinct keys models it exactly. -/
def arpabetFeatureTable : List (String × PhonemeFeatures) := [
  ("AA", .vowel .low .back),
  ("AE", .vowel .low .front),
  ("AH", .vowel .mid .central),
  ("AO", .vowel .mid .back),
  ("AW", .vowel .low .central),
  ("AY", .vowel .low .central),
  ("EH", .vowel .mid .front),
  ("ER", .vowel .mid .central),
  ("EY", .vowel .mid .front),
  ("IH", .vowel .high .front),
  ("IY", .vowel .high .front),
  ("OW", .vowel .mid .back),
  ("OY", .vowel .mid .back),
  ("UH", .vowel .high .back),
  ("UW", .vowel .high .back),
  ("B", .consonant .stop .bilabial .voiced),
  ("CH", .consonant .affricate .postalveolar .voiceless),
  ("D", .consonant .stop .alveolar .voiced),
  ("DH", .consonant .fricative .dental .voiced),
  ("F", .consonant .fricative .labiodental .voiceless),
  ("G", .consonant .stop .velar .voiced),
  ("HH", .consonant .fricative .glottal .voiceless),
  ("JH", .consonant .affricate .postalveolar .voiced),
  ("K", .consonant .stop .velar .voiceless),
  ("L", .consonant .liquid .alveolar .voiced),
  ("M", .consonant .nasal .bilabial .voiced),
  ("N", .consonant .nasal .alveolar .voiced),
  ("NG", .consonant .nasal .velar .voiced),
  ("P", .consonant .stop .bilabial .voiceless),
  ("R", .consonant .liquid .alveolar .voiced),
  ("S", .consonant .fricative .alveolar .voiceless),
  ("SH", .consonant .fricative .postalveolar .voiceless),
  ("T", .consonant .stop .alveolar .voiceless),
  ("TH", .consonant .fricative .dental .voiceless),
  ("V", .consonant .fricative .labiodental .voiced),
  ("W", .consonant .glide .bilabial .voiced),
  ("Y", .consonant .glide .palatal .voiced),
  ("Z", .consonant .fricative .alveolar .voiced),
  ("ZH", .consonant .fricative .postalveolar .voiced)]

structure Phoneme where
  symbol : String
  stress : StressLevel
  features : PhonemeFeatures
deriving DecidableEq

/-- `Phoneme::parse_stress`: split a trailing stress digit off the raw
symbol.  `ends_with('0')` on a string is equivalent to its last character
being `'0'`, and the byte slice `[..len-1]` drops that one ASCII digit. -/
def Phoneme.parseStress (symbol : String) : String × StressLevel :=
  match symbol.toList.getLast? with
  | some '0' => (String.mk symbol.toList.dropLast, .unstressed)
  | some '1' => (String.mk symbol.toList.dropLast, .primary)
  | some '2' => (String.mk symbol.toList.dropLast, .secondary)
  | _ => (symbol, .unstressed)

def Phoneme.getArpabetFeatures (symbol : String) : PhonemeFeatures :=
  (arpabetFeatureTable.lookup symbol).getD PhonemeFeatures.default

def Phoneme.fromArpabet (symbol : String) : Phoneme :=
  let p := Phoneme.parseStress symbol
  { symbol := p.1, stress := p.2, features := Phoneme.getArpabetFeatures p.1 }

def Phoneme.wordBoundary : Phoneme :=
  { symbol := " ", stress := .unstressed,
    features := { phonemeType := .special, manner := none, place := none,
                  voicing := none, height := none, backness := none } }

/-- The `Display` implementation for `Phoneme`. -/
def Phoneme.render (p : Phoneme) : String :=
  let stressMark : String :=
    match p.stress with
    | .primary => "1"
    | .secondary => "2"
    | .unstressed => "0"
  if p.symbol = " " then " " else p.symbol ++ stressMark

/-! ## Dictionary (src/dict.rs) -/

/-- Character-wise lowercasing; agrees with Rust `str::to_lowercase` on
ASCII strings (and with the repeated `to_lowercase` calls in
`word_to_phonemes`, `lookup` and `apply_rules`). -/
def lowerStr (s : String) : String :=
  String.mk (s.toList.map Char.toLower)

structure Dictionary where
  entries : List (String × List Phoneme)

def Dictionary.lookup (d : Dictionary) (word : String) : Option (List Phoneme) :=
  d.entries.lookup (lowerStr word)

/-- The Unicode `White_Space` code points, the set recognized by Rust's
`char::is_whitespace` and by `str::trim`. -/
def rustIsWhitespace (c : Char) : Bool :=
  [(9 : Nat), 10, 11, 12, 13, 32, 133, 160, 5760, 8192, 8193, 8194, 8195,
   8196, 8197, 8198, 8199, 8200, 8201, 8202, 8232, 8233, 8239, 8287,
   12288].contains c.toNat

def isAsciiChar (c : Char) : Bool :=
  c.toNat ≤ 127

/-- UTF-8 byte length, as returned by Rust `str::len`. -/
def utf8Len (l : List Char) : Nat :=
  (l.map Char.utf8Size).sum

/-- Rust `str::trim`: strip leading and trailing whitespace. -/
def rustTrim (l : List Char) : List Char :=
  ((l.dropWhile rustIsWhitespace).reverse.dropWhile rustIsWhitespace).reverse

/-- `Dictionary::is_valid_line`.  Note that the lower bound is on the
trimmed byte length but the upper bound is on the raw byte length, and
that the line must also contain at least one ASCII letter. -/
def Dictionary.isValidLine (line : String) : Bool :=
  let l := line.toList
  if utf8Len (rustTrim l) < 3 ∨ utf8Len l > 200 then false
  else if l.any (fun c => !isAsciiChar c && !rustIsWhitespace c) then false
  else l.any (fun c => c.isAlpha)

/-! ## Rules engine (src/rules.rs) -/

inductive RuleCondition where
  | wordStart
  | wordEnd
  | beforeVowel
  | afterVowel
  | stressed
  | unstressed
deriving DecidableEq

structure Rule where
  pattern : String
  leftContext : Option String
  rightContext : Option String
  phonemes : List String
  priority : Nat
  conditions : List RuleCondition
deriving DecidableEq

structure RulesEngine where
  rules : List Rule
  irregularWords : List (String × List String)

/-- `RulesEngine::is_vowel`. -/
def isVowelChar (c : Char) : Bool :=
  ['a', 'e', 'i', 'o', 'u', 'y'].contains c.toLower

/-- `RulesEngine::check_right_context`, called at the position just past
the matched pattern. -/
def checkRightContext (context : String) (word : List Char) (pos : Nat) : Bool :=
  if context = "_" then decide (word.length ≤ pos)
  else
    let ctx := context.toList
    decide (pos + ctx.length ≤ word.length) &&
      ((word.drop pos).take ctx.length).map Char.toLower == ctx

/-- `RulesEngine::check_left_context`.  The source only checks
`ctx.len ≤ pos` before indexing; indices stay below `pos`, which is below
the word length at every call site, so the truncating `take` agrees with
the source there. -/
def checkLeftContext (context : String) (word : List Char) (pos : Nat) : Bool :=
  if context = "_" then pos == 0
  else
    let ctx := context.toList
    decide (ctx.length ≤ pos) &&
      ((word.drop (pos - ctx.length)).take ctx.length).map Char.toLower == ctx

/-- `RulesEngine::check_condition`.  The stressed and unstressed
conditions are accepted but always hold. -/
def checkCondition (cond : RuleCondition) (word : List Char) (pos : Nat) : Bool :=
  match cond with
  | .wordStart => pos == 0
  | .wordEnd => pos == word.length - 1
  | .beforeVowel =>
      if pos + 1 < word.length then isVowelChar (word.getD (pos + 1) ' ') else false
  | .afterVowel =>
      if pos > 0 then isVowelChar (word.getD (pos - 1) ' ') else false
  | .stressed => true
  | .unstressed => true

/-- `RulesEngine::rule_matches`: pattern (case-insensitively), right and
left contexts, then the extra conditions; on success the score is the
rule's priority.  The source's chain of early `return None` exits is one
conjunction: the rule matches exactly when every check passes. -/
def ruleMatches (rule : Rule) (word : List Char) (pos : Nat) : Option Nat :=
  if pos + rule.pattern.toList.length ≤ word.length
      ∧ ((word.drop pos).take rule.pattern.toList.length).map Char.toLower = rule.pattern.toList
      ∧ rule.rightContext.all
          (fun ctx => checkRightContext ctx word (pos + rule.pattern.toList.length)) = true
      ∧ rule.leftContext.all (fun ctx => checkLeftContext ctx word pos) = true
      ∧ rule.conditions.all (fun c => checkCondition c word pos) = true
  then some rule.priority else none

/-- The rules indexed under first character `c`, in rule-vector order:
`build_index` pushes rule indices in increasing order, so the group for
`c` lists exactly the rules whose pattern starts with `c`, in order. -/
def candidates (rules : List Rule) (c : Char) : List Rule :=
  rules.filter (fun r => r.pattern.toList.head? == some c)

/-- The selection loop of `RulesEngine::find_best_rule`: keep the first
rule whose matching score strictly exceeds the best score so far
(initially 0). -/
def pickBest (word : List Char) (pos : Nat) :
    List Rule → Option Rule → Nat → Option Rule × Nat
  | [], best, bp => (best, bp)
  | r :: rs, best, bp =>
    match ruleMatches r word pos with
    | some p => if bp < p then pickBest word pos rs (some r) p else pickBest word pos rs best bp
    | none => pickBest word pos rs best bp

/-- `RulesEngine::find_best_rule`.  The source indexes `word[pos]`, which
every call site guards with `pos < word.len()`; out-of-range positions
are modelled as no rule found. -/
def findBestRule (rules : List Rule) (word : List Char) (pos : Nat) : Option Rule :=
  match word[pos]? with
  | some c => (pickBest word pos (candidates rules c) none 0).1
  | none => none

/-- `RulesEngine::get_default_phoneme`, a `match` on the ASCII-lowercased
character over the 26 letters, modelled as a distinct-key table lookup. -/
def defaultPhonemeTable : List (Char × String) := [
  ('a', "AE0"), ('b', "B"), ('c', "K"), ('d', "D"), ('e', "EH0"),
  ('f', "F"), ('g', "G"), ('h', "HH"), ('i', "IH0"), ('j', "JH"),
  ('k', "K"), ('l', "L"), ('m', "M"), ('n', "N"), ('o', "OW0"),
  ('p', "P"), ('q', "K"), ('r', "R"), ('s', "S"), ('t', "T"),
  ('u', "UH0"), ('v', "V"), ('w', "W"), ('x', "K"), ('y', "Y"),
  ('z', "Z")]

def getDefaultPhoneme (ch : Char) : Option String :=
  defaultPhonemeTable.lookup ch.toLower

/-- The scan loop of `RulesEngine::apply_rules`, with the step count made
explicit as fuel.  Each iteration either fires the best rule (emitting
its non-empty output symbols and advancing by the pattern's character
count) or falls back to the single-letter default (advancing by one).
The second component records the characters consumed per step.
`apply_rules` runs it with fuel `word.length`, which is always enough
(each step consumes at least one character). -/
def scanGo (rules : List Rule) (word : List Char) : Nat → Nat → List Phoneme × List Nat
  | 0, _ => ([], [])
  | fuel + 1, pos =>
    if h : pos < word.length then
      match findBestRule rules word pos with
      | some rule =>
          let consumed := rule.pattern.length
          let rest := scanGo rules word fuel (pos + consumed)
          ((rule.phonemes.filter (fun s => !s.isEmpty)).map Phoneme.fromArpabet ++ rest.1,
           consumed :: rest.2)
      | none =>
          let rest := scanGo rules word fuel (pos + 1)
          ((getDefaultPhoneme (word.get ⟨pos, h⟩)).toList.map Phoneme.fromArpabet ++ rest.1,
           1 :: rest.2)
    else ([], [])

/-- `RulesEngine::apply_rules`: irregular-word override first, otherwise
the left-to-right rule scan.  Both branches return `Ok`. -/
def RulesEngine.applyRules (e : RulesEngine) (word : String) :
    Except String (List Phoneme) :=
  match e.irregularWords.lookup (lowerStr word) with
  | some syms => .ok (syms.map Phoneme.fromArpabet)
  | none =>
    let wordChars := word.toList
    .ok (scanGo e.rules wordChars wordChars.length 0).1

def RulesEngine.ruleCount (e : RulesEngine) : Nat :=
  e.rules.length

/-- The irregular-word table of `RulesEngine::load_irregular_words`. -/
def irregularWordsTable : List (String × List String) := [
  ("colonel", ["K", "ER1", "N", "AH0", "L"]),
  ("yacht", ["Y", "AA1", "T"]),
  ("island", ["AY1", "L", "AH0", "N", "D"]),
  ("aisle", ["AY1", "L"]),
  ("isle", ["AY1", "L"]),
  ("knight", ["N", "AY1", "T"]),
  ("knee", ["N", "IY1"]),
  ("knife", ["N", "AY1", "F"]),
  ("know", ["N", "OW1"]),
  ("gnome", ["N", "OW1", "M"]),
  ("gnat", ["N", "AE1", "T"]),
  ("write", ["R", "AY1", "T"]),
  ("wrong", ["R", "AO1", "NG"]),
  ("wrist", ["R", "IH1", "S", "T"]),
  ("lamb", ["L", "AE1", "M"]),
  ("comb", ["K", "OW1", "M"]),
  ("tomb", ["T", "UW1", "M"]),
  ("thumb", ["TH", "AH1", "M"]),
  ("debt", ["D", "EH1", "T"]),
  ("doubt", ["D", "AW1", "T"]),
  ("psychology", ["S", "AY0", "K", "AA1", "L", "AH0", "JH", "IY0"]),
  ("pneumonia", ["N", "UW0", "M", "OW1", "N", "Y", "AH0"]),
  ("rhythm", ["R", "IH1", "DH", "AH0", "M"]),
  ("phone", ["F", "OW1", "N"]),
  ("graph", ["G", "R", "AE1", "F"]),
  ("laugh", ["L", "AE1", "F"]),
  ("cough", ["K", "AO1", "F"]),
  ("rough", ["R", "AH1", "F"]),
  ("tough", ["T", "AH1", "F"]),
  ("enough", ["IH0", "N", "AH1", "F"]),
  ("one", ["W", "AH1", "N"]),
  ("once", ["W", "AH1", "N", "S"]),
  ("two", ["T", "UW1"]),
  ("eight", ["EY1", "T"]),
  ("women", ["W", "IH1", "M", "AH0", "N"]),
  ("woman", ["W", "UH1", "M", "AH0", "N"]),
  ("busy", ["B", "IH1", "Z", "IY0"]),
  ("business", ["B", "IH1", "Z", "N", "AH0", "S"]),
  ("minute", ["M", "AY0", "N", "UW1", "T"])]

def mkRule (pattern left right : String) (phonemes : List String)
    (conditions : List RuleCondition) (priority : Nat) : Rule :=
  { pattern := pattern,
    leftContext := if left.isEmpty then none else some left,
    rightContext := if right.isEmpty then none else some right,
    phonemes := phonemes,
    priority := priority,
    conditions := conditions }

/-- The built-in rule table of `RulesEngine::load_builtin_rules`, in
source (insertion) order, before the priority sort. -/
def builtinRulesRaw : List Rule := [
  mkRule "kn" "" "" ["N"] [.wordStart] 10,
  mkRule "gn" "" "" ["N"] [.wordStart] 10,
  mkRule "wr" "" "" ["R"] [.wordStart] 10,
  mkRule "ps" "" "" ["S"] [.wordStart] 10,
  mkRule "pn" "" "" ["N"] [.wordStart] 10,
  mkRule "pt" "" "" ["T"] [.wordStart] 10,
  mkRule "mb" "" "" ["M"] [.wordEnd] 8,
  mkRule "bt" "" "" ["T"] [.wordEnd] 8,
  mkRule "mn" "" "" ["M"] [.wordEnd] 8,
  mkRule "th" "" "" ["TH"] [] 5,
  mkRule "ch" "" "" ["CH"] [] 5,
  mkRule "tch" "" "" ["CH"] [] 6,
  mkRule "sch" "" "" ["S", "K"] [] 6,
  mkRule "sh" "" "" ["SH"] [] 5,
  mkRule "ti" "" "on" ["SH"] [] 6,
  mkRule "ci" "" "an" ["SH"] [] 6,
  mkRule "si" "" "on" ["ZH"] [] 6,
  mkRule "ph" "" "" ["F"] [] 5,
  mkRule "gh" "" "" ["F"] [.wordEnd] 6,
  mkRule "gh" "" "" [] [] 5,
  mkRule "ght" "" "" ["T"] [] 6,
  mkRule "ng" "" "" ["NG"] [] 5,
  mkRule "nk" "" "" ["NG", "K"] [] 5,
  mkRule "qu" "" "" ["K", "W"] [] 5,
  mkRule "x" "" "" ["K", "S"] [] 3,
  mkRule "x" "_" "" ["Z"] [.wordStart] 4,
  mkRule "ck" "" "" ["K"] [] 5,
  mkRule "dge" "" "" ["JH"] [.wordEnd] 6,
  mkRule "ough" "" "" ["AH1", "F"] [] 8,
  mkRule "augh" "" "" ["AO1", "F"] [] 8,
  mkRule "eigh" "" "" ["EY1"] [] 8,
  mkRule "tion" "" "" ["SH", "AH0", "N"] [] 7,
  mkRule "sion" "" "" ["ZH", "AH0", "N"] [] 7,
  mkRule "ture" "" "" ["CH", "ER0"] [] 7,
  mkRule "eau" "" "" ["OW1"] [] 6,
  mkRule "ieu" "" "" ["UW1"] [] 6,
  mkRule "oor" "" "" ["UH1", "R"] [] 6,
  mkRule "ear" "" "" ["IH1", "R"] [] 6,
  mkRule "eer" "" "" ["IH1", "R"] [] 6,
  mkRule "air" "" "" ["EH1", "R"] [] 6,
  mkRule "are" "" "" ["EH1", "R"] [] 6,
  mkRule "ore" "" "" ["AO1", "R"] [] 6,
  mkRule "our" "" "" ["AW1", "R"] [] 6,
  mkRule "ai" "" "" ["EY1"] [] 5,
  mkRule "ay" "" "" ["EY1"] [] 5,
  mkRule "au" "" "" ["AO1"] [] 5,
  mkRule "aw" "" "" ["AO1"] [] 5,
  mkRule "ea" "" "" ["IY1"] [] 5,
  mkRule "ee" "" "" ["IY1"] [] 5,
  mkRule "ei" "" "" ["EY1"] [] 5,
  mkRule "eu" "" "" ["Y", "UW1"] [] 5,
  mkRule "ey" "" "" ["EY1"] [] 5,
  mkRule "ie" "" "" ["IY1"] [] 5,
  mkRule "oa" "" "" ["OW1"] [] 5,
  mkRule "oe" "" "" ["OW1"] [] 5,
  mkRule "oi" "" "" ["OY1"] [] 5,
  mkRule "oo" "" "" ["UW1"] [] 5,
  mkRule "ou" "" "" ["AW1"] [] 5,
  mkRule "ow" "" "" ["AW1"] [] 5,
  mkRule "oy" "" "" ["OY1"] [] 5,
  mkRule "ue" "" "" ["UW1"] [] 5,
  mkRule "ui" "" "" ["UW1"] [] 5,
  mkRule "al" "" "" ["AO1", "L"] [] 4,
  mkRule "ar" "" "" ["AA1", "R"] [] 4,
  mkRule "er" "" "" ["ER1"] [] 4,
  mkRule "ir" "" "" ["ER1"] [] 4,
  mkRule "or" "" "" ["AO1", "R"] [] 4,
  mkRule "ur" "" "" ["ER1"] [] 4,
  mkRule "c" "" "e" ["S"] [] 4,
  mkRule "c" "" "i" ["S"] [] 4,
  mkRule "c" "" "y" ["S"] [] 4,
  mkRule "g" "" "e" ["JH"] [] 4,
  mkRule "g" "" "i" ["JH"] [] 4,
  mkRule "g" "" "y" ["JH"] [] 4,
  mkRule "y" "" "" ["AY1"] [.wordEnd] 4,
  mkRule "y" "" "" ["IH0"] [] 3,
  mkRule "e" "" "_" [] [.wordEnd] 4,
  mkRule "a" "" "" ["AE0"] [] 2,
  mkRule "e" "" "" ["EH0"] [] 2,
  mkRule "i" "" "" ["IH0"] [] 2,
  mkRule "o" "" "" ["AA0"] [] 2,
  mkRule "u" "" "" ["AH0"] [] 2,
  mkRule "b" "" "" ["B"] [] 2,
  mkRule "c" "" "" ["K"] [] 2,
  mkRule "d" "" "" ["D"] [] 2,
  mkRule "f" "" "" ["F"] [] 2,
  mkRule "g" "" "" ["G"] [] 2,
  mkRule "h" "" "" ["HH"] [] 2,
  mkRule "j" "" "" ["JH"] [] 2,
  mkRule "k" "" "" ["K"] [] 2,
  mkRule "l" "" "" ["L"] [] 2,
  mkRule "m" "" "" ["M"] [] 2,
  mkRule "n" "" "" ["N"] [] 2,
  mkRule "p" "" "" ["P"] [] 2,
  mkRule "r" "" "" ["R"] [] 2,
  mkRule "s" "" "" ["S"] [] 2,
  mkRule "t" "" "" ["T"] [] 2,
  mkRule "v" "" "" ["V"] [] 2,
  mkRule "w" "" "" ["W"] [] 2,
  mkRule "z" "" "" ["Z"] [] 2]

/-- Stable insertion of a rule into a descending-priority list: the rule
goes after every strictly higher priority and before every equal or lower
one. -/
def insertRule (r : Rule) : List Rule → List Rule
  | [] => [r]
  | x :: xs => if r.priority < x.priority then x :: insertRule r xs else r :: x :: xs

/-- Stable sort by descending priority.  Rust's `sort_by` with comparator
`b.priority.cmp(&a.priority)` is a stable descending sort; stability plus
sortedness determine the output uniquely, so this insertion sort produces
the same list. -/
def sortRulesDesc (l : List Rule) : List Rule :=
  l.foldr insertRule []

/-- The engine built by `RulesEngine::load_english_rules`: the built-in
rules sorted by descending priority plus the irregular-word table.
`parse_rules` for an external rule file is a no-op in the source, so the
optional file contributes nothing. -/
def builtinEngine : RulesEngine :=
  { rules := sortRulesDesc builtinRulesRaw, irregularWords := irregularWordsTable }

/-! ## Text processing (src/text.rs) -/

def numberWordsTable : List (String × String) := [
  ("0", "zero"), ("1", "one"), ("2", "two"), ("3", "three"), ("4", "four"),
  ("5", "five"), ("6", "six"), ("7", "seven"), ("8", "eight"), ("9", "nine"),
  ("10", "ten"), ("11", "eleven"), ("12", "twelve"), ("13", "thirteen"),
  ("14", "fourteen"), ("15", "fifteen"), ("16", "sixteen"), ("17", "seventeen"),
  ("18", "eighteen"), ("19", "nineteen"), ("20", "twenty")]

def abbreviationsTable : List (String × String) := [
  ("dr.", "doctor"), ("mr.", "mister"), ("mrs.", "misses"), ("ms.", "miss"),
  ("prof.", "professor"), ("st.", "street"), ("ave.", "avenue"),
  ("blvd.", "boulevard"), ("etc.", "etcetera"), ("vs.", "versus")]

/-- `TextProcessor::expand_abbreviations`: one `str::replace` per table
entry.  The hash-map iteration order is unspecified in Rust; the model
fixes insertion order (no pattern overlaps another or occurs in an
expansion, so the combined result does not depend on the order). -/
def expandAbbreviations (text : String) : String :=
  abbreviationsTable.foldl (fun acc p => acc.replace p.1 p.2) text

/-- A regex word character `\w` (ASCII range; inputs are lowercased ASCII
at this point in the pipeline). -/
def isWordChar (c : Char) : Bool :=
  c.isAlpha || c.isDigit || c == '_'

theorem length_dropWhile_le {α : Type} (p : α → Bool) :
    ∀ l : List α, (l.dropWhile p).length ≤ l.length := by
  intro l
  induction l with
  | nil => simp [List.dropWhile]
  | cons c cs ih =>
      rw [List.dropWhile_cons]
      by_cases h : p c = true
      · rw [if_pos h]
        simp only [List.length_cons]
        omega
      · rw [if_neg h]

/-- `TextProcessor::expand_numbers`: replace every maximal digit run that
is flanked by word boundaries (regex `\b\d+\b`) by its number word, when
the table knows it. -/
def expandNumbersGo (prev : Option Char) : List Char → List Char
  | [] => []
  | c :: cs =>
    if c.isDigit then
      let run := c :: cs.takeWhile Char.isDigit
      let rest := cs.dropWhile Char.isDigit
      let lb := match prev with
        | none => true
        | some p => !isWordChar p
      let rb := match rest.head? with
        | none => true
        | some n => !isWordChar n
      let runStr := String.mk run
      let out := if lb && rb then (numberWordsTable.lookup runStr).getD runStr else runStr
      out.toList ++ expandNumbersGo (some c) rest
    else
      c :: expandNumbersGo (some c) cs
termination_by l => l.length
decreasing_by
  all_goals simp_wf
  have h := length_dropWhile_le Char.isDigit cs
  omega

def expandNumbers (text : String) : String :=
  String.mk (expandNumbersGo none text.toList)

/-- `TextProcessor::clean_punctuation`: regex `[^\w\s]` replaced by a
space, character-wise. -/
def cleanPunctuation (text : String) : String :=
  String.mk (text.toList.map (fun c =>
    if !isWordChar c && !rustIsWhitespace c then ' ' else c))

/-- Collapse every whitespace run to a single space (regex `\s+`). -/
def collapseWhitespaceGo (inRun : Bool) : List Char → List Char
  | [] => []
  | c :: cs =>
    if rustIsWhitespace c then
      if inRun then collapseWhitespaceGo true cs else ' ' :: collapseWhitespaceGo true cs
    else c :: collapseWhitespaceGo false cs

/-- `TextProcessor::normalize_whitespace`: trim, then collapse runs. -/
def normalizeWhitespace (text : String) : String :=
  String.mk (collapseWhitespaceGo false (rustTrim text.toList))

/-- `TextProcessor::normalize`. -/
def normalize (text : String) : Except String String :=
  .ok (normalizeWhitespace (cleanPunctuation (expandNumbers
        (expandAbbreviations (lowerStr text)))))

/-- Rust `str::split_whitespace` on a character list: maximal non-blank
chunks, empties discarded.  `cur` holds the current chunk reversed. -/
def splitWhitespaceGo (cur : List Char) : List Char → List (List Char)
  | [] => if cur.isEmpty then [] else [cur.reverse]
  | c :: cs =>
    if rustIsWhitespace c then
      if cur.isEmpty then splitWhitespaceGo [] cs
      else cur.reverse :: splitWhitespaceGo [] cs
    else splitWhitespaceGo (c :: cur) cs

/-- Rust `str::trim_matches` with a character predicate: strip matching
characters from both ends. -/
def trimMatches (p : Char → Bool) (l : List Char) : List Char :=
  ((l.dropWhile p).reverse.dropWhile p).reverse

/-- `TextProcessor::tokenize`: split on whitespace, trim non-alphabetic
characters from both ends of each token, drop empties. -/
def tokenize (text : String) : Except String (List String) :=
  .ok (((splitWhitespaceGo [] text.toList).map
          (fun w => String.mk (trimMatches (fun c => !c.isAlpha) w))).filter
        (fun w => !w.isEmpty))

/-! ## Converter (src/lib.rs) -/

/-- `RustG2P::word_to_phonemes`: lowercase, dictionary first, rules
engine on a miss. -/
def wordToPhonemes (dict : Dictionary) (engine : RulesEngine) (word : String) :
    Except String (List Phoneme) :=
  let w := lowerStr word
  match dict.lookup w with
  | some phonemes => .ok phonemes
  | none => engine.applyRules w

/-- The per-word loop of `RustG2P::text_to_phonemes`: convert each token
and append one word-boundary marker after its output. -/
def convertWords (dict : Dictionary) (engine : RulesEngine) :
    List String → Except String (List Phoneme)
  | [] => .ok []
  | w :: ws => do
    let ps ← wordToPhonemes dict engine w
    let rest ← convertWords dict engine ws
    pure (ps ++ [Phoneme.wordBoundary] ++ rest)

/-- `RustG2P::text_to_phonemes`: normalize, tokenize, convert word by
word. -/
def textToPhonemes (dict : Dictionary) (engine : RulesEngine) (text : String) :
    Except String (List Phoneme) := do
  let normalized ← normalize text
  let words ← tokenize normalized
  convertWords dict engine words

/-! ## Helper lemmas -/

theorem lookup_mem {α β : Type} [BEq α] [LawfulBEq α] {l : List (α × β)} {k : α} {v : β}
    (h : l.lookup k = some v) : (k, v) ∈ l := by
  induction l with
  | nil => cases h
  | cons e t ih =>
      obtain ⟨a, b⟩ := e
      cases hbeq : (k == a) with
      | true =>
          simp only [List.lookup, hbeq] at h
          obtain rfl := eq_of_beq hbeq
          obtain rfl : b = v := by injection h
          exact List.mem_cons_self _ _
      | false =>
          simp only [List.lookup, hbeq] at h
          exact List.mem_cons_of_mem _ (ih h)

theorem string_length_eq (s : String) : s.length = s.toList.length := rfl

/-- Facts extracted from a successful `rule_matches`: the score is the
rule's priority, the pattern fits inside the word, the pattern matches
case-insensitively, and the right context (when present) holds just past
the pattern. -/
theorem ruleMatches_some {rule : Rule} {word : List Char} {pos : Nat} {q : Nat}
    (h : ruleMatches rule word pos = some q) :
    q = rule.priority ∧
    pos + rule.pattern.toList.length ≤ word.length ∧
    ((word.drop pos).take rule.pattern.toList.length).map Char.toLower = rule.pattern.toList ∧
    (∀ ctx, rule.rightContext = some ctx →
      checkRightContext ctx word (pos + rule.pattern.toList.length) = true) := by
  unfold ruleMatches at h
  split at h
  · next hcond =>
      obtain ⟨h1, h2, h3, _, _⟩ := hcond
      refine ⟨by injection h with h; omega, h1, h2, ?_⟩
      intro ctx hctx
      rw [hctx] at h3
      simpa [Option.all] using h3
  · cases h

theorem mem_candidates {rules : List Rule} {c : Char} {r : Rule} :
    r ∈ candidates rules c ↔ r ∈ rules ∧ r.pattern.toList.head? = some c := by
  unfold candidates
  simp [List.mem_filter]

/-- Full characterization of the `find_best_rule` selection loop.  Given
a consistent accumulator, either no candidate beats it (and every
candidate's score is at most the accumulated one), or the loop returns
the first candidate attaining the maximal score among the candidates. -/
theorem pickBest_spec (word : List Char) (pos : Nat) :
    ∀ (cands : List Rule) (best : Option Rule) (bp : Nat),
    ((best = none ∧ bp = 0) ∨
      (∃ b, best = some b ∧ ruleMatches b word pos = some bp ∧ 0 < bp)) →
    (pickBest word pos cands best bp = (best, bp) ∧
      ∀ j : Nat, ∀ hj : j < cands.length, ∀ p : Nat,
        ruleMatches (cands.get ⟨j, hj⟩) word pos = some p → p ≤ bp) ∨
    (∃ i : Nat, ∃ hi : i < cands.length,
      pickBest word pos cands best bp =
        (some (cands.get ⟨i, hi⟩), (cands.get ⟨i, hi⟩).priority) ∧
      ruleMatches (cands.get ⟨i, hi⟩) word pos = some (cands.get ⟨i, hi⟩).priority ∧
      bp < (cands.get ⟨i, hi⟩).priority ∧
      ∀ j : Nat, ∀ hj : j < cands.length, ∀ p : Nat,
        ruleMatches (cands.get ⟨j, hj⟩) word pos = some p →
          p ≤ (cands.get ⟨i, hi⟩).priority ∧
          (j < i → p < (cands.get ⟨i, hi⟩).priority)) := by
  intro cands
  induction cands with
  | nil =>
      intro best bp _
      exact Or.inl ⟨rfl, fun j hj => absurd hj (by simp)⟩
  | cons r rs ih =>
      intro best bp hacc
      cases hm : ruleMatches r word pos with
      | none =>
          have hres : pickBest word pos (r :: rs) best bp = pickBest word pos rs best bp := by
            simp [pickBest, hm]
          rcases ih best bp hacc with ⟨heq, hall⟩ | ⟨i, hi, heq, hmatch, hlt, hall⟩
          · refine Or.inl ⟨hres.trans heq, ?_⟩
            intro j hj p hp
            match j with
            | 0 => rw [show (r :: rs).get ⟨0, hj⟩ = r from rfl, hm] at hp; cases hp
            | j + 1 => exact hall j (by simpa using hj) p hp
          · refine Or.inr ⟨i + 1, by simpa using hi, ?_, ?_, ?_, ?_⟩
            · rw [show (r :: rs).get ⟨i + 1, by simpa using hi⟩ = rs.get ⟨i, hi⟩ from rfl]
              exact hres.trans heq
            · rw [show (r :: rs).get ⟨i + 1, by simpa using hi⟩ = rs.get ⟨i, hi⟩ from rfl]
              exact hmatch
            · rw [show (r :: rs).get ⟨i + 1, by simpa using hi⟩ = rs.get ⟨i, hi⟩ from rfl]
              exact hlt
            · intro j hj p hp
              rw [show (r :: rs).get ⟨i + 1, by simpa using hi⟩ = rs.get ⟨i, hi⟩ from rfl]
              match j with
              | 0 => rw [show (r :: rs).get ⟨0, hj⟩ = r from rfl, hm] at hp; cases hp
              | j + 1 =>
                  have := hall j (by simpa using hj) p hp
                  exact ⟨this.1, fun hji => this.2 (by omega)⟩
      | some p0 =>
          have hp0 : p0 = r.priority := (ruleMatches_some hm).1
          by_cases hbp : bp < p0
          · have hres : pickBest word pos (r :: rs) best bp = pickBest word pos rs (some r) p0 := by
              simp [pickBest, hm, hbp]
            have hacc2 : ((some r : Option Rule) = none ∧ p0 = 0) ∨
                (∃ b, (some r : Option Rule) = some b ∧
                  ruleMatches b word pos = some p0 ∧ 0 < p0) :=
              Or.inr ⟨r, rfl, hm, by omega⟩
            rcases ih (some r) p0 hacc2 with ⟨heq, hall⟩ | ⟨i, hi, heq, hmatch, hlt, hall⟩
            · refine Or.inr ⟨0, by simp, ?_, ?_, ?_, ?_⟩
              · rw [show (r :: rs).get ⟨0, by simp⟩ = r from rfl]
                rw [hres, heq, hp0]
              · rw [show (r :: rs).get ⟨0, by simp⟩ = r from rfl]
                rw [← hp0]; exact hm
              · rw [show (r :: rs).get ⟨0, by simp⟩ = r from rfl]; omega
              · intro j hj p hp
                rw [show (r :: rs).get ⟨0, by simp⟩ = r from rfl]
                match j with
                | 0 =>
                    rw [show (r :: rs).get ⟨0, hj⟩ = r from rfl, hm] at hp
                    injection hp with hp
                    exact ⟨by omega, by omega⟩
                | j + 1 =>
                    have := hall j (by simpa using hj) p hp
                    exact ⟨by omega, by omega⟩
            · refine Or.inr ⟨i + 1, by simpa using hi, ?_, ?_, ?_, ?_⟩
              · rw [show (r :: rs).get ⟨i + 1, by simpa using hi⟩ = rs.get ⟨i, hi⟩ from rfl]
                exact hres.trans heq
              · rw [show (r :: rs).get ⟨i + 1, by simpa using hi⟩ = rs.get ⟨i, hi⟩ from rfl]
                exact hmatch
              · rw [show (r :: rs).get ⟨i + 1, by simpa using hi⟩ = rs.get ⟨i, hi⟩ from rfl]
                omega
              · intro j hj p hp
                rw [show (r :: rs).get ⟨i + 1, by simpa using hi⟩ = rs.get ⟨i, hi⟩ from rfl]
                match j with
                | 0 =>
                    rw [show (r :: rs).get ⟨0, hj⟩ = r from rfl, hm] at hp
                    injection hp with hp
                    exact ⟨by omega, fun _ => by omega⟩
                | j + 1 =>
                    have := hall j (by simpa using hj) p hp
                    exact ⟨this.1, fun hji => this.2 (by omega)⟩
          · have hres : pickBest word pos (r :: rs) best bp = pickBest word pos rs best bp := by
              simp [pickBest, hm, hbp]
            rcases ih best bp hacc with ⟨heq, hall⟩ | ⟨i, hi, heq, hmatch, hlt, hall⟩
            · refine Or.inl ⟨hres.trans heq, ?_⟩
              intro j hj p hp
              match j with
              | 0 =>
                  rw [show (r :: rs).get ⟨0, hj⟩ = r from rfl, hm] at hp
                  injection hp with hp
                  omega
              | j + 1 => exact hall j (by simpa using hj) p hp
            · refine Or.inr ⟨i + 1, by simpa using hi, ?_, ?_, ?_, ?_⟩
              · rw [show (r :: rs).get ⟨i + 1, by simpa using hi⟩ = rs.get ⟨i, hi⟩ from rfl]
                exact hres.trans heq
              · rw [show (r :: rs).get ⟨i + 1, by simpa using hi⟩ = rs.get ⟨i, hi⟩ from rfl]
                exact hmatch
              · rw [show (r :: rs).get ⟨i + 1, by simpa using hi⟩ = rs.get ⟨i, hi⟩ from rfl]
                exact hlt
              · intro j hj p hp
                rw [show (r :: rs).get ⟨i + 1, by simpa using hi⟩ = rs.get ⟨i, hi⟩ from rfl]
                match j with
                | 0 =>
                    rw [show (r :: rs).get ⟨0, hj⟩ = r from rfl, hm] at hp
                    injection hp with hp
                    exact ⟨by omega, fun _ => by omega⟩
                | j + 1 =>
                    have := hall j (by simpa using hj) p hp
                    exact ⟨this.1, fun hji => this.2 (by omega)⟩

/-- A rule returned by `find_best_rule` is a candidate for the current
character and matches at the current position. -/
theorem findBestRule_spec {rules : List Rule} {word : List Char} {pos : Nat} {r : Rule}
    (h : findBestRule rules word pos = some r) :
    ∃ c, word[pos]? = some c ∧ r ∈ candidates rules c ∧
      ruleMatches r word pos = some r.priority := by
  unfold findBestRule at h
  cases hc : word[pos]? with
  | none => rw [hc] at h; cases h
  | some c =>
      rw [hc] at h
      have h2 : (pickBest word pos (candidates rules c) none 0).1 = some r := h
      rcases pickBest_spec word pos (candidates rules c) none 0 (Or.inl ⟨rfl, rfl⟩) with
        ⟨heq, _⟩ | ⟨i, hi, heq, hmatch, _, _⟩
      · rw [heq] at h2; cases h2
      · rw [heq] at h2
        obtain rfl : (candidates rules c).get ⟨i, hi⟩ = r := by injection h2
        exact ⟨c, rfl, List.get_mem _ _ _, hmatch⟩

/-- A rule returned by `find_best_rule` has a non-empty pattern that does
not run past the end of the word. -/
theorem findBestRule_bounds {rules : List Rule} {word : List Char} {pos : Nat} {r : Rule}
    (h : findBestRule rules word pos = some r) :
    1 ≤ r.pattern.length ∧ pos + r.pattern.length ≤ word.length := by
  obtain ⟨c, _, hcand, hm⟩ := findBestRule_spec h
  have hhead := (mem_candidates.mp hcand).2
  have hne : r.pattern.toList ≠ [] := by
    intro hnil; rw [hnil] at hhead; cases hhead
  have hpos : 0 < r.pattern.toList.length := List.length_pos.mpr hne
  have hle := (ruleMatches_some hm).2.1
  rw [string_length_eq]
  omega

theorem findBestRule_mem {rules : List Rule} {word : List Char} {pos : Nat} {r : Rule}
    (h : findBestRule rules word pos = some r) : r ∈ rules := by
  obtain ⟨c, _, hcand, _⟩ := findBestRule_spec h
  exact (mem_candidates.mp hcand).1

/-- Every recorded step of the scan consumes at least one character. -/
theorem scanGo_steps_pos (rules : List Rule) (word : List Char) :
    ∀ fuel pos, ∀ x ∈ (scanGo rules word fuel pos).2, 1 ≤ x := by
  intro fuel
  induction fuel with
  | zero => intro pos x hx; simp [scanGo] at hx
  | succ fuel ih =>
      intro pos x hx
      by_cases h : pos < word.length
      · rw [show scanGo rules word (fuel + 1) pos = _ from rfl] at hx
        simp only [scanGo] at hx
        rw [dif_pos h] at hx
        cases hfb : findBestRule rules word pos with
        | some rule =>
            rw [hfb] at hx
            simp only at hx
            rcases List.mem_cons.mp hx with rfl | hx
            · exact (findBestRule_bounds hfb).1
            · exact ih _ x hx
        | none =>
            rw [hfb] at hx
            simp only at hx
            rcases List.mem_cons.mp hx with rfl | hx
            · exact le_refl 1
            · exact ih _ x hx
      · simp only [scanGo] at hx
        rw [dif_neg h] at hx
        simp at hx

/-- The characters consumed by the scan add up exactly to the remaining
word length, provided there is enough fuel (one unit per step always
suffices because every step consumes at least one character). -/
theorem scanGo_sum (rules : List Rule) (word : List Char) :
    ∀ fuel pos, pos ≤ word.length → word.length - pos ≤ fuel →
      (scanGo rules word fuel pos).2.sum = word.length - pos := by
  intro fuel
  induction fuel with
  | zero =>
      intro pos _ hfuel
      simp only [scanGo, List.sum_nil]
      omega
  | succ fuel ih =>
      intro pos hpos hfuel
      by_cases h : pos < word.length
      · simp only [scanGo]
        rw [dif_pos h]
        cases hfb : findBestRule rules word pos with
        | some rule =>
            obtain ⟨h1, h2⟩ := findBestRule_bounds hfb
            simp only [List.sum_cons]
            rw [ih (pos + rule.pattern.length) (by omega) (by omega)]
            omega
        | none =>
            simp only [List.sum_cons]
            rw [ih (pos + 1) (by omega) (by omega)]
            omega
      · simp only [scanGo]
        rw [dif_neg h]
        simp only [List.sum_nil]
        omega

/-! ## Supporting definitions for the claims -/

/-- The line-skipping test of `load_cmu_dict`: comment lines (leading
`;;;`, modelled as the first three characters) and blank lines are
skipped before `is_valid_line` is consulted. -/
def skipLine (line : String) : Bool :=
  line.toList.take 3 == [';', ';', ';'] || (rustTrim line.toList).isEmpty

/-- The symbols of the fixed phonetic inventory (the feature-table keys:
15 vowels, 24 consonants). -/
def arpabetInventory : List String :=
  arpabetFeatureTable.map Prod.fst

def stressDigits : List String := ["0", "1", "2"]

/-- The feature invariant of the specification: a vowel carries height
and backness only, a consonant carries manner, place and voicing only,
and a special phoneme carries no features. -/
def featureInvariant (f : PhonemeFeatures) : Bool :=
  match f.phonemeType with
  | .vowel =>
      f.height.isSome && f.backness.isSome &&
      f.manner == none && f.place == none && f.voicing == none
  | .consonant =>
      f.manner.isSome && f.place.isSome && f.voicing.isSome &&
      f.height == none && f.backness == none
  | .special =>
      f.manner == none && f.place == none && f.voicing == none &&
      f.height == none && f.backness == none

def lcLetters : List Char :=
  ['a', 'b', 'c', 'd', 'e', 'f', 'g', 'h', 'i', 'j', 'k', 'l', 'm',
   'n', 'o', 'p', 'q', 'r', 's', 't', 'u', 'v', 'w', 'x', 'y', 'z']

/-- Whether the list contains the two adjacent characters `g`, `h`. -/
def hasGH : List Char → Bool
  | [] => false
  | c :: rest => (c == 'g' && rest.head? == some 'h') || hasGH rest

/-- The two silent rules of the built-in table: `gh` with no conditions
and word-final `e`. -/
def ghSilentRule : Rule := mkRule "gh" "" "" [] [] 5

def eSilentRule : Rule := mkRule "e" "" "_" [] [.wordEnd] 4

theorem hasGH_of : ∀ (l : List Char) (pos : Nat),
    l[pos]? = some 'g' → l[pos + 1]? = some 'h' → hasGH l = true := by
  intro l
  induction l with
  | nil => intro pos h _; cases h
  | cons c rest ih =>
      intro pos hg hh
      match pos with
      | 0 =>
          have hg2 : c = 'g' := by simpa using hg
          have hh2 : rest[0]? = some 'h' := by simpa using hh
          have hhead : rest.head? = some 'h' := by
            rw [List.head?_eq_getElem?]; exact hh2
          subst hg2
          simp [hasGH, hhead]
      | pos + 1 =>
          have hg2 : rest[pos]? = some 'g' := by simpa using hg
          have hh2 : rest[pos + 1]? = some 'h' := by simpa using hh
          simp [hasGH, ih pos hg2 hh2]

/-- Extract the word characters under a successful case-insensitive
pattern match. -/
theorem match_chars {word : List Char} {pos : Nat} {pat : List Char}
    (hlen : pos + pat.length ≤ word.length)
    (hmatch : ((word.drop pos).take pat.length).map Char.toLower = pat) :
    ∀ i, i < pat.length → ∃ a, word[pos + i]? = some a ∧ some a.toLower = pat[i]? := by
  intro i hi
  have h0 : (((word.drop pos).take pat.length).map Char.toLower)[i]? = pat[i]? := by
    rw [hmatch]
  rw [List.getElem?_map, List.getElem?_take, if_pos hi, List.getElem?_drop] at h0
  have hlt : pos + i < word.length := by omega
  obtain ⟨a, ha⟩ : ∃ a, word[pos + i]? = some a :=
    ⟨word[pos + i], List.getElem?_eq_getElem hlt⟩
  rw [ha] at h0
  exact ⟨a, ha, h0⟩

theorem lcLetters_toLower : ∀ c ∈ lcLetters, c.toLower = c := by decide

theorem default_covers : ∀ c ∈ lcLetters, (getDefaultPhoneme c).isSome = true := by decide

theorem irregular_entries_nonempty : ∀ pr ∈ irregularWordsTable, pr.2 ≠ [] := by decide

theorem builtin_priorities_pos : ∀ r ∈ builtinEngine.rules, 0 < r.priority := by decide

/-- Every built-in rule either is one of the two silent rules or emits at
least one phoneme symbol. -/
theorem builtin_rule_emit : ∀ r ∈ builtinEngine.rules,
    r = ghSilentRule ∨ r = eSilentRule ∨
    r.phonemes.filter (fun s => !s.isEmpty) ≠ [] := by decide

/-- On a word of lowercase letters that does not end in `e` and has no
`gh` digraph, every scan step emits at least one phoneme, so the scan
output is non-empty as soon as one step runs. -/
theorem scanGo_ne (word : List Char)
    (hlet : ∀ c ∈ word, c ∈ lcLetters)
    (hlast : word[word.length - 1]? ≠ some 'e')
    (hgh : hasGH word = false) :
    ∀ fuel pos, pos < word.length → word.length - pos ≤ fuel →
      (scanGo builtinEngine.rules word fuel pos).1 ≠ [] := by
  intro fuel pos hpos hfuel
  match fuel with
  | 0 => omega
  | fuel + 1 =>
    simp only [scanGo]
    rw [dif_pos hpos]
    cases hfb : findBestRule builtinEngine.rules word pos with
    | some rule =>
        show (rule.phonemes.filter (fun s => !s.isEmpty)).map Phoneme.fromArpabet ++
            (scanGo builtinEngine.rules word fuel (pos + rule.pattern.length)).1 ≠ []
        obtain ⟨c, hc, hcand, hm⟩ := findBestRule_spec hfb
        have hrule : rule ∈ builtinEngine.rules := (mem_candidates.mp hcand).1
        obtain ⟨_, hlen, hpat, hrctx⟩ := ruleMatches_some hm
        rcases builtin_rule_emit rule hrule with hr | hr | hr
        · subst hr
          obtain ⟨a, ha, hla⟩ := match_chars hlen hpat 0 (by decide)
          obtain ⟨b, hb, hlb⟩ := match_chars hlen hpat 1 (by decide)
          have haw : a ∈ word := List.getElem?_mem ha
          have hbw : b ∈ word := List.getElem?_mem hb
          have ha2 : a = 'g' := by
            have := lcLetters_toLower a (hlet a haw)
            rw [this] at hla
            exact Option.some.inj hla
          have hb2 : b = 'h' := by
            have := lcLetters_toLower b (hlet b hbw)
            rw [this] at hlb
            exact Option.some.inj hlb
          subst ha2; subst hb2
          rw [Nat.add_zero] at ha
          exact absurd (hasGH_of word pos ha hb) (by rw [hgh]; exact Bool.false_ne_true)
        · subst hr
          have hck := hrctx "_" rfl
          have hle : word.length ≤ pos + 1 := by
            simpa [checkRightContext] using hck
          obtain ⟨a, ha, hla⟩ := match_chars hlen hpat 0 (by decide)
          have haw : a ∈ word := List.getElem?_mem ha
          have ha2 : a = 'e' := by
            have := lcLetters_toLower a (hlet a haw)
            rw [this] at hla
            exact Option.some.inj hla
          subst ha2
          rw [Nat.add_zero] at ha
          have hposeq : word.length - 1 = pos := by omega
          rw [hposeq] at hlast
          exact absurd ha hlast
        · intro hcontra
          rw [List.append_eq_nil] at hcontra
          exact hr (List.map_eq_nil_iff.mp hcontra.1)
    | none =>
        show (getDefaultPhoneme (word.get ⟨pos, hpos⟩)).toList.map Phoneme.fromArpabet ++
            (scanGo builtinEngine.rules word fuel (pos + 1)).1 ≠ []
        have hmem : word.get ⟨pos, hpos⟩ ∈ word := List.get_mem _ _ _
        have hsome := default_covers _ (hlet _ hmem)
        obtain ⟨v, hv⟩ := Option.isSome_iff_exists.mp hsome
        rw [hv]
        simp

theorem length_le_sum_of_pos : ∀ l : List Nat, (∀ x ∈ l, 1 ≤ x) → l.length ≤ l.sum := by
  intro l
  induction l with
  | nil => simp
  | cons x xs ih =>
      intro h
      have hx := h x (List.mem_cons_self _ _)
      have := ih (fun y hy => h y (List.mem_cons_of_mem _ hy))
      simp only [List.length_cons, List.sum_cons]
      omega

/-- Filtering one priority class out of an insertion commutes: the
inserted rule lands in front of its own class (it only passes strictly
higher priorities) and leaves every other class unchanged. -/
theorem filter_insertRule (r : Rule) (p : Nat) :
    ∀ s : List Rule, (insertRule r s).filter (fun x => x.priority == p) =
      if r.priority = p then r :: s.filter (fun x => x.priority == p)
      else s.filter (fun x => x.priority == p) := by
  intro s
  induction s with
  | nil =>
      show List.filter _ [r] = _
      by_cases h : r.priority = p
      · simp [List.filter_cons, h]
      · simp [List.filter_cons, h]
  | cons x xs ih =>
      show (if r.priority < x.priority then x :: insertRule r xs else r :: x :: xs).filter _ = _
      by_cases hc : r.priority < x.priority
      · rw [if_pos hc, List.filter_cons, ih]
        by_cases hr : r.priority = p
        · have hxp : ¬ x.priority = p := by omega
          simp [hr, hxp, List.filter_cons]
        · by_cases hx : x.priority = p
          · simp [hr, hx, List.filter_cons]
          · simp [hr, hx, List.filter_cons]
      · rw [if_neg hc]
        by_cases hr : r.priority = p
        · simp [hr, List.filter_cons]
        · simp [hr, List.filter_cons]

/-- Stability of the descending-priority sort: each priority class keeps
its original (insertion) order. -/
theorem sortRulesDesc_stable (l : List Rule) (p : Nat) :
    (sortRulesDesc l).filter (fun x => x.priority == p) =
      l.filter (fun x => x.priority == p) := by
  induction l with
  | nil => rfl
  | cons a t ih =>
      show (insertRule a (sortRulesDesc t)).filter _ = _
      rw [filter_insertRule, ih, List.filter_cons]
      by_cases ha : a.priority = p
      · simp [ha]
      · simp [ha]

/-! ## Totality of the convert-time operations -/

theorem applyRules_ok (e : RulesEngine) (w : String) : ∃ ps, e.applyRules w = .ok ps := by
  unfold RulesEngine.applyRules
  cases h : e.irregularWords.lookup (lowerStr w) with
  | some syms => exact ⟨_, rfl⟩
  | none => exact ⟨_, rfl⟩

theorem wordToPhonemes_ok (d : Dictionary) (e : RulesEngine) (w : String) :
    ∃ ps, wordToPhonemes d e w = .ok ps := by
  show ∃ ps, (match d.lookup (lowerStr w) with
    | some phonemes => Except.ok phonemes
    | none => e.applyRules (lowerStr w)) = .ok ps
  cases h : d.lookup (lowerStr w) with
  | some ps => exact ⟨_, rfl⟩
  | none => exact applyRules_ok e (lowerStr w)

theorem convertWords_ok (d : Dictionary) (e : RulesEngine) :
    ∀ ws, ∃ ps, convertWords d e ws = .ok ps := by
  intro ws
  induction ws with
  | nil => exact ⟨[], rfl⟩
  | cons w ws ih =>
      obtain ⟨a, ha⟩ := wordToPhonemes_ok d e w
      obtain ⟨b, hb⟩ := ih
      refine ⟨a ++ [Phoneme.wordBoundary] ++ b, ?_⟩
      show (wordToPhonemes d e w >>= fun ps =>
        convertWords d e ws >>= fun rest => pure (ps ++ [Phoneme.wordBoundary] ++ rest)) = _
      rw [ha, hb]
      rfl

theorem textToPhonemes_ok (d : Dictionary) (e : RulesEngine) (t : String) :
    ∃ ps, textToPhonemes d e t = .ok ps := by
  obtain ⟨ws, hws⟩ : ∃ ws, tokenize (normalizeWhitespace (cleanPunctuation (expandNumbers
      (expandAbbreviations (lowerStr t))))) = .ok ws := ⟨_, rfl⟩
  obtain ⟨ps, hps⟩ := convertWords_ok d e ws
  refine ⟨ps, ?_⟩
  show (normalize t >>= fun n => tokenize n >>= fun ws => convertWords d e ws) = .ok ps
  rw [show normalize t = .ok (normalizeWhitespace (cleanPunctuation (expandNumbers
      (expandAbbreviations (lowerStr t))))) from rfl]
  show (tokenize (normalizeWhitespace (cleanPunctuation (expandNumbers
      (expandAbbreviations (lowerStr t))))) >>= fun ws => convertWords d e ws) = .ok ps
  rw [hws]
  exact hps

/-- `lowerStr` is the identity on strings whose characters are already
lowercase letters. -/
theorem lowerStr_fixed {s : String} (h : ∀ c ∈ s.toList, c ∈ lcLetters) :
    lowerStr s = s := by
  obtain ⟨data⟩ := s
  show String.mk (data.map Char.toLower) = String.mk data
  have h2 : data.map Char.toLower = data.map id :=
    List.map_congr_left (fun c hc => lcLetters_toLower c (h c hc))
  rw [h2, List.map_id]

/-! ## The claims -/

def emptyDict : Dictionary := { entries := [] }

def catDict : Dictionary :=
  { entries := [("cat", [Phoneme.fromArpabet "K", Phoneme.fromArpabet "AE1",
                         Phoneme.fromArpabet "T"])] }

/-- Claim C1: for every word whose lowercased form is a key of the loaded
dictionary, `word_to_phonemes` returns exactly the stored phoneme
sequence, and the rules engine is not consulted (the result is the same
for every rules engine). -/
theorem c1_dictionary_precedence (d : Dictionary) (e1 e2 : RulesEngine)
    (w : String) (ps : List Phoneme) (h : d.lookup (lowerStr w) = some ps) :
    wordToPhonemes d e1 w = .ok ps ∧ wordToPhonemes d e2 w = .ok ps := by
  refine ⟨?_, ?_⟩
  · show (match d.lookup (lowerStr w) with
      | some phonemes => Except.ok phonemes
      | none => e1.applyRules (lowerStr w)) = .ok ps
    rw [h]
  · show (match d.lookup (lowerStr w) with
      | some phonemes => Except.ok phonemes
      | none => e2.applyRules (lowerStr w)) = .ok ps
    rw [h]

/-- Witness for C1: the `cat -> K AE1 T` lexicon scenario, looked up with
the differently-cased query `"CAT"`. -/
theorem c1_witness :
    wordToPhonemes catDict builtinEngine "CAT" =
      .ok [Phoneme.fromArpabet "K", Phoneme.fromArpabet "AE1", Phoneme.fromArpabet "T"] :=
  (c1_dictionary_precedence catDict builtinEngine builtinEngine "CAT" _ rfl).1

/-- Counterexample to claim C2 as stated: `"e"` is a non-empty word of
ASCII letters absent from the dictionary, yet `word_to_phonemes` returns
the empty phoneme sequence — the word-final silent-`e` rule (priority 4)
beats the basic `e` rule (priority 2) and emits nothing. -/
theorem c2_counterexample :
    "e".toList ≠ [] ∧ (∀ c ∈ "e".toList, c.isAlpha = true) ∧
    Dictionary.lookup emptyDict (lowerStr "e") = none ∧
    wordToPhonemes emptyDict builtinEngine "e" = .ok [] :=
  ⟨by decide, by decide, rfl, rfl⟩

/-- Claim C2, amended: for every non-empty word of ASCII letters absent
from the dictionary that does not end in `e` and contains no `gh`
digraph (the two silent rules of the built-in table), `word_to_phonemes`
returns a non-empty phoneme sequence. -/
theorem c2_fallback_nonempty (d : Dictionary) (w : String)
    (hne : (lowerStr w).toList ≠ [])
    (hlet : ∀ c ∈ (lowerStr w).toList, c ∈ lcLetters)
    (hdict : d.lookup (lowerStr w) = none)
    (hlast : (lowerStr w).toList[(lowerStr w).toList.length - 1]? ≠ some 'e')
    (hgh : hasGH (lowerStr w).toList = false) :
    ∃ ps, wordToPhonemes d builtinEngine w = .ok ps ∧ ps ≠ [] := by
  have hfix : lowerStr (lowerStr w) = lowerStr w := lowerStr_fixed hlet
  show ∃ ps, (match d.lookup (lowerStr w) with
    | some phonemes => Except.ok phonemes
    | none => builtinEngine.applyRules (lowerStr w)) = .ok ps ∧ ps ≠ []
  rw [hdict]
  show ∃ ps, builtinEngine.applyRules (lowerStr w) = .ok ps ∧ ps ≠ []
  show ∃ ps, (match builtinEngine.irregularWords.lookup (lowerStr (lowerStr w)) with
    | some syms => (Except.ok (syms.map Phoneme.fromArpabet) : Except String (List Phoneme))
    | none => Except.ok (scanGo builtinEngine.rules (lowerStr w).toList
        (lowerStr w).toList.length 0).1) = .ok ps ∧ ps ≠ []
  rw [hfix]
  cases hirr : builtinEngine.irregularWords.lookup (lowerStr w) with
  | some syms =>
      refine ⟨syms.map Phoneme.fromArpabet, rfl, ?_⟩
      have hmem := lookup_mem hirr
      have hne2 := irregular_entries_nonempty _ hmem
      intro hcontra
      exact hne2 (List.map_eq_nil_iff.mp hcontra)
  | none =>
      refine ⟨_, rfl, ?_⟩
      have hpos : 0 < (lowerStr w).toList.length := List.length_pos.mpr hne
      exact scanGo_ne (lowerStr w).toList hlet hlast hgh
        (lowerStr w).toList.length 0 hpos (by omega)

/-- Witness for the amended C2 at the word `"cat"` with an empty
dictionary. -/
theorem c2_witness :
    ∃ ps, wordToPhonemes emptyDict builtinEngine "cat" = .ok ps ∧ ps ≠ [] :=
  c2_fallback_nonempty emptyDict "cat" (by decide) (by decide) rfl (by decide) (by decide)

/-- Claim C3: for a word without an irregular override, `apply_rules` is
the scan run with fuel `len(word)` (so it terminates within `len(word)`
steps — the step list is no longer than the word), every step consumes
at least one character, a matched rule never advances past the end of
the word, and the per-step consumed counts sum to exactly `len(word)`. -/
theorem c3_scan_termination (w : String)
    (hirr : builtinEngine.irregularWords.lookup (lowerStr w) = none) :
    RulesEngine.applyRules builtinEngine w =
      .ok (scanGo builtinEngine.rules w.toList w.toList.length 0).1 ∧
    (scanGo builtinEngine.rules w.toList w.toList.length 0).2.length ≤ w.toList.length ∧
    (∀ x ∈ (scanGo builtinEngine.rules w.toList w.toList.length 0).2, 1 ≤ x) ∧
    (scanGo builtinEngine.rules w.toList w.toList.length 0).2.sum = w.toList.length ∧
    (∀ pos r, findBestRule builtinEngine.rules w.toList pos = some r →
      1 ≤ r.pattern.length ∧ pos + r.pattern.length ≤ w.toList.length) := by
  have hsum := scanGo_sum builtinEngine.rules w.toList w.toList.length 0 (by omega) (by omega)
  have hsteps := scanGo_steps_pos builtinEngine.rules w.toList w.toList.length 0
  have hsum2 : (scanGo builtinEngine.rules w.toList w.toList.length 0).2.sum =
      w.toList.length := by simpa using hsum
  refine ⟨?_, ?_, hsteps, hsum2, fun pos r h => findBestRule_bounds h⟩
  · show (match builtinEngine.irregularWords.lookup (lowerStr w) with
      | some syms => Except.ok (syms.map Phoneme.fromArpabet)
      | none => Except.ok (scanGo builtinEngine.rules w.toList w.toList.length 0).1) = _
    rw [hirr]
  · have := length_le_sum_of_pos _ hsteps
    omega

/-- Witness for C3 at the word `"cat"` (no irregular override): the
scan's per-step consumption sums to the word length and the step count
is bounded by it. -/
theorem c3_witness :
    (scanGo builtinEngine.rules "cat".toList "cat".toList.length 0).2.sum =
      "cat".toList.length ∧
    (scanGo builtinEngine.rules "cat".toList "cat".toList.length 0).2.length ≤
      "cat".toList.length :=
  ⟨(c3_scan_termination "cat" (by decide)).2.2.2.1,
   (c3_scan_termination "cat" (by decide)).2.1⟩

/-- Claim C4: a word whose case-folded form has an irregular-word
override gets exactly the table's symbol sequence converted to phonemes,
and no rule scan occurs — the result is the same for every rule list. -/
theorem c4_irregular_override (w : String) (syms : List String)
    (h : builtinEngine.irregularWords.lookup (lowerStr w) = some syms) :
    ∀ rules : List Rule,
      RulesEngine.applyRules
        { rules := rules, irregularWords := builtinEngine.irregularWords } w
        = .ok (syms.map Phoneme.fromArpabet) := by
  intro rules
  show (match builtinEngine.irregularWords.lookup (lowerStr w) with
    | some syms => Except.ok (syms.map Phoneme.fromArpabet)
    | none => Except.ok (scanGo rules w.toList w.toList.length 0).1) = _
  rw [h]

/-- Witness for C4: the `yacht -> [Y, AA1, T]` scenario, with the full
built-in rule list present (including rules matching `ya` and `ar`). -/
theorem c4_witness :
    RulesEngine.applyRules builtinEngine "yacht" =
      .ok [Phoneme.fromArpabet "Y", Phoneme.fromArpabet "AA1", Phoneme.fromArpabet "T"] :=
  c4_irregular_override "yacht" ["Y", "AA1", "T"] rfl builtinEngine.rules

/-- Claim C5: whenever some candidate rule matches (and rule priorities
are positive, as in the built-in table), `find_best_rule` selects a
matching rule of maximal priority among the rules indexed under the
current character, namely the earliest one attaining that maximum in the
rule order; moreover the built-in rule order is sorted by descending
priority and preserves insertion order within each priority class. -/
theorem c5_best_rule_selection (rules : List Rule) (word : List Char) (pos : Nat) (c : Char)
    (hpri : ∀ r ∈ rules, 0 < r.priority)
    (hc : word[pos]? = some c)
    (hex : ∃ r ∈ candidates rules c, (ruleMatches r word pos).isSome) :
    (∃ r, findBestRule rules word pos = some r ∧
      ruleMatches r word pos = some r.priority ∧
      (∀ q ∈ candidates rules c, ∀ p, ruleMatches q word pos = some p → p ≤ r.priority) ∧
      (∃ i, ∃ hi : i < (candidates rules c).length,
        (candidates rules c).get ⟨i, hi⟩ = r ∧
        ∀ j, ∀ hj : j < (candidates rules c).length, j < i →
          ∀ p, ruleMatches ((candidates rules c).get ⟨j, hj⟩) word pos = some p →
            p < r.priority)) ∧
    List.Pairwise (fun a b => b.priority ≤ a.priority) builtinEngine.rules ∧
    (∀ p, builtinEngine.rules.filter (fun x => x.priority == p) =
      builtinRulesRaw.filter (fun x => x.priority == p)) := by
  refine ⟨?_, by decide, fun p => sortRulesDesc_stable builtinRulesRaw p⟩
  rcases pickBest_spec word pos (candidates rules c) none 0 (Or.inl ⟨rfl, rfl⟩) with
    ⟨heq, hall⟩ | ⟨i, hi, heq, hmatch, _, hall⟩
  · exfalso
    obtain ⟨r, hr, hsome⟩ := hex
    obtain ⟨p, hp⟩ := Option.isSome_iff_exists.mp hsome
    obtain ⟨⟨j, hj⟩, hn⟩ := List.mem_iff_get.mp hr
    have hle := hall j hj p (by rw [hn]; exact hp)
    have hp2 : p = r.priority := (ruleMatches_some hp).1
    have := hpri r ((mem_candidates.mp hr).1)
    omega
  · refine ⟨(candidates rules c).get ⟨i, hi⟩, ?_, hmatch, ?_, ⟨i, hi, rfl, ?_⟩⟩
    · unfold findBestRule
      rw [hc]
      show (pickBest word pos (candidates rules c) none 0).1 = _
      rw [heq]
    · intro q hq p hp
      obtain ⟨⟨j, hj⟩, hn⟩ := List.mem_iff_get.mp hq
      exact (hall j hj p (by rw [hn]; exact hp)).1
    · intro j hj hji p hp
      exact (hall j hj p hp).2 hji

/-- Witness for C5 at the word `"ch"`, position 0: among the rules
starting with `c` the `ch` digraph rule wins. -/
theorem c5_witness :
    ∃ r, findBestRule builtinEngine.rules "ch".toList 0 = some r ∧
      ruleMatches r "ch".toList 0 = some r.priority ∧
      (∀ q ∈ candidates builtinEngine.rules 'c', ∀ p,
        ruleMatches q "ch".toList 0 = some p → p ≤ r.priority) ∧
      (∃ i, ∃ hi : i < (candidates builtinEngine.rules 'c').length,
        (candidates builtinEngine.rules 'c').get ⟨i, hi⟩ = r ∧
        ∀ j, ∀ hj : j < (candidates builtinEngine.rules 'c').length, j < i →
          ∀ p, ruleMatches ((candidates builtinEngine.rules 'c').get ⟨j, hj⟩)
            "ch".toList 0 = some p → p < r.priority) :=
  (c5_best_rule_selection builtinEngine.rules "ch".toList 0 'c'
    builtin_priorities_pos (by decide) (by decide)).1

/-- Claim C6: the convert-time operations never return an error value:
`apply_rules`, `word_to_phonemes` and `text_to_phonemes` always return
`Ok` (and `lookup` returns an `Option` — a miss, never an error); a word
of unrecognized characters degrades to the empty output rather than an
error, each character being skipped. -/
theorem c6_convert_total (d : Dictionary) (e : RulesEngine) (w t : String) :
    (∃ ps, RulesEngine.applyRules e w = .ok ps) ∧
    (∃ ps, wordToPhonemes d e w = .ok ps) ∧
    (∃ ps, textToPhonemes d e t = .ok ps) ∧
    ((d.lookup w).isSome = true ∨ d.lookup w = none) ∧
    RulesEngine.applyRules builtinEngine "??" = .ok [] := by
  refine ⟨applyRules_ok e w, wordToPhonemes_ok d e w, textToPhonemes_ok d e t, ?_, rfl⟩
  cases h : d.lookup w with
  | some _ => exact Or.inl rfl
  | none => exact Or.inr rfl

/-- Counterexample to claim C7 as stated: the line `"123"` is neither a
comment nor blank, its trimmed length 3 lies in `[3,200]` and every
character is ASCII, yet `is_valid_line` rejects it (it contains no
letter). -/
theorem c7_counterexample :
    skipLine "123" = false ∧
    3 ≤ utf8Len (rustTrim "123".toList) ∧ utf8Len "123".toList ≤ 200 ∧
    (∀ c ∈ "123".toList, isAsciiChar c = true) ∧
    Dictionary.isValidLine "123" = false :=
  ⟨by decide, by decide, by decide, by decide, by decide⟩

/-- Claim C7, amended: a line is rejected by `is_valid_line` exactly when
its trimmed byte length is below 3, or its raw (untrimmed) byte length
exceeds 200, or it contains a character that is neither ASCII nor
whitespace, or it contains no ASCII letter. -/
theorem c7_line_filter (line : String) :
    Dictionary.isValidLine line = false ↔
      (utf8Len (rustTrim line.toList) < 3 ∨ 200 < utf8Len line.toList ∨
       (∃ c ∈ line.toList, isAsciiChar c = false ∧ rustIsWhitespace c = false) ∨
       (∀ c ∈ line.toList, c.isAlpha = false)) := by
  show (if utf8Len (rustTrim line.toList) < 3 ∨ utf8Len line.toList > 200 then false
    else if line.toList.any (fun c => !isAsciiChar c && !rustIsWhitespace c) then false
    else line.toList.any (fun c => c.isAlpha)) = false ↔ _
  by_cases h1 : utf8Len (rustTrim line.toList) < 3 ∨ utf8Len line.toList > 200
  · rw [if_pos h1]
    constructor
    · intro _
      rcases h1 with h | h
      · exact Or.inl h
      · exact Or.inr (Or.inl h)
    · intro _; rfl
  · rw [if_neg h1]
    by_cases h2 : line.toList.any (fun c => !isAsciiChar c && !rustIsWhitespace c) = true
    · rw [if_pos h2]
      constructor
      · intro _
        refine Or.inr (Or.inr (Or.inl ?_))
        rw [List.any_eq_true] at h2
        obtain ⟨c, hc, hcc⟩ := h2
        rw [Bool.and_eq_true, Bool.not_eq_true', Bool.not_eq_true'] at hcc
        exact ⟨c, hc, hcc.1, hcc.2⟩
      · intro _; rfl
    · rw [if_neg h2]
      constructor
      · intro hany
        refine Or.inr (Or.inr (Or.inr ?_))
        intro c hc
        have := (List.any_eq_false.mp hany) c hc
        exact Bool.not_eq_true _ ▸ this
      · intro hRHS
        rcases hRHS with h | h | h | h
        · exact absurd (Or.inl h) h1
        · exact absurd (Or.inr h) h1
        · exfalso
          apply h2
          rw [List.any_eq_true]
          obtain ⟨c, hc, h3, h4⟩ := h
          exact ⟨c, hc, by rw [Bool.and_eq_true, Bool.not_eq_true', Bool.not_eq_true']
                           exact ⟨h3, h4⟩⟩
        · rw [List.any_eq_false]
          intro c hc
          rw [h c hc]
          exact Bool.false_ne_true

/-- Claim C8: rendering reproduces the raw symbol for every inventory
symbol carrying a valid trailing stress digit. -/
theorem c8_render_roundtrip (s d : String)
    (hs : s ∈ arpabetInventory) (hd : d ∈ stressDigits) :
    (Phoneme.fromArpabet (s ++ d)).render = s ++ d := by
  have H : ∀ x ∈ arpabetInventory, ∀ y ∈ stressDigits,
      (Phoneme.fromArpabet (x ++ y)).render = x ++ y := by decide
  exact H s hs d hd

/-- Witness for C8 at `"AA1"`. -/
theorem c8_witness :
    "AA" ∈ arpabetInventory ∧ "1" ∈ stressDigits ∧
    (Phoneme.fromArpabet ("AA" ++ "1")).render = "AA" ++ "1" :=
  ⟨by decide, by decide, c8_render_roundtrip "AA" "1" (by decide) (by decide)⟩

/-- Claim C9: every phoneme built by `from_arpabet` or `word_boundary`
satisfies the feature invariant (vowels carry height and backness only,
consonants carry manner, place and voicing only, specials carry
nothing). -/
theorem c9_feature_invariant (s : String) :
    featureInvariant (Phoneme.fromArpabet s).features = true ∧
    featureInvariant Phoneme.wordBoundary.features = true := by
  constructor
  · show featureInvariant (Phoneme.getArpabetFeatures (Phoneme.parseStress s).1) = true
    generalize (Phoneme.parseStress s).1 = base
    unfold Phoneme.getArpabetFeatures
    cases hl : arpabetFeatureTable.lookup base with
    | none => decide
    | some v =>
        have hmem := lookup_mem hl
        have hall : ∀ pr ∈ arpabetFeatureTable, featureInvariant pr.2 = true := by decide
        simpa using hall _ hmem
  · decide

/-- Claim C10: `apply_rules` on the empty string succeeds with the empty
sequence, and so does `word_to_phonemes` when the empty string is not a
dictionary key. -/
theorem c10_empty_word (d : Dictionary) (h : d.lookup (lowerStr "") = none) :
    RulesEngine.applyRules builtinEngine "" = .ok [] ∧
    wordToPhonemes d builtinEngine "" = .ok [] := by
  refine ⟨rfl, ?_⟩
  show (match d.lookup (lowerStr "") with
    | some phonemes => Except.ok phonemes
    | none => builtinEngine.applyRules (lowerStr "")) = .ok []
  rw [h]
  rfl

/-- Witness for C10 with an empty dictionary. -/
theorem c10_witness :
    RulesEngine.applyRules builtinEngine "" = .ok [] ∧
    wordToPhonemes emptyDict builtinEngine "" = .ok [] :=
  c10_empty_word emptyDict rfl

end G2P
